import Mathlib

/-!
Verification of the numeric formatting engine of the great-tables repository.

The repository ships the tests of the engine (`tests/test_formats.py`,
`tests/test_utils_render_common.py`) while the engine itself
(`great_tables/_formats.py`, `great_tables/utils_render_common.py`) is not part
of the sources at hand, so the engine is modelled from the specification:
exact string/integer decimal arithmetic, round-half-up rounding, significant
figure counting, trailing zero and decimal mark suppression, thousands
separator insertion, and exponential notation expansion.

Strings are modelled as `List Char`.
-/

/-- Whether a character is a decimal digit (code point between 48 and 57). -/
def isDig (c : Char) : Bool := 48 ≤ c.toNat && c.toNat ≤ 57

/-- Numeric value of a decimal digit character: its code point minus 48. -/
def digitVal (c : Char) : Nat := c.toNat - 48

/-- The character for a decimal digit value below ten. -/
def digitChar (d : Nat) : Char := Char.ofNat (48 + d)

/-- The natural number denoted by a most-significant-first digit string. -/
def charsNat (l : List Char) : Nat := l.foldl (fun a c => 10 * a + digitVal c) 0

/-- Fuel-driven digit rendering: most-significant-first digits of `n`,
empty for `n = 0`, assuming `n ≤ fuel`. -/
def natCharsAux : Nat → Nat → List Char
  | 0, _ => []
  | fuel + 1, n => if n = 0 then [] else natCharsAux fuel (n / 10) ++ [digitChar (n % 10)]

/-- Decimal rendering of a natural number, `"0"` for zero. -/
def natChars (n : Nat) : List Char := if n = 0 then ['0'] else natCharsAux n n

/-- Decimal rendering of `r` left-padded with zeros to `k` digits. -/
def natCharsPad (k r : Nat) : List Char :=
  List.replicate (k - (natChars r).length) '0' ++ natChars r

/-- Strip trailing `'0'` characters. -/
def dropTrailingZeros (l : List Char) : List Char :=
  (l.reverse.dropWhile (fun c => c == '0')).reverse

/-- The sign prefix of a formatted number. -/
def signChars (neg : Bool) : List Char := if neg then ['-'] else []

/-- Split a leading `'-'` or `'+'` off a numeric string, returning whether the
value is negative together with the remaining characters. -/
def splitSign (s : List Char) : Bool × List Char :=
  match s with
  | [] => (false, [])
  | c :: r => if c = '-' then (true, r) else if c = '+' then (false, r) else (false, s)

/-- Modelled from the spec: the sign / integer digits / fractional digits of a
plain decimal literal (`NumericInput` after exponential expansion);
`great_tables/_formats.py` is not among the sources at hand. -/
structure Parts where
  neg : Bool
  ip : List Char
  fp : List Char
deriving DecidableEq

/-- Modelled from the spec: parse a plain decimal literal
`[sign]digits[.digits]` with at least one digit; rejects anything else. -/
def parsePlain (s : List Char) : Option Parts :=
  let sr := splitSign s
  let a := sr.2.takeWhile (fun c => isDig c)
  match sr.2.dropWhile (fun c => isDig c) with
  | [] => if a.isEmpty then none else some ⟨sr.1, a, []⟩
  | '.' :: fs =>
    if fs.all (fun c => isDig c) && !(a.isEmpty && fs.isEmpty) then some ⟨sr.1, a, fs⟩
    else none
  | _ => none

/-- Whether a string contains an exponent marker `e`/`E`. -/
def hasMarker (s : List Char) : Bool := s.any (fun c => c == 'e' || c == 'E')

/-- Split a string at its first exponent marker, `none` if there is none. -/
def splitAtMarker (s : List Char) : Option (List Char × List Char) :=
  match s.dropWhile (fun c => !(c == 'e' || c == 'E')) with
  | [] => none
  | _ :: es => some (s.takeWhile (fun c => !(c == 'e' || c == 'E')), es)

/-- Modelled from the spec: decompose an exponential literal
`[sign]digits[.digits](e|E)[sign]digits` into mantissa sign, mantissa integer
digits, mantissa fractional digits and the signed exponent. -/
def parseExp (s : List Char) : Option (Bool × List Char × List Char × Int) :=
  match splitAtMarker s with
  | none => none
  | some (m, es) =>
    match parsePlain m with
    | none => none
    | some p =>
      let er := splitSign es
      if er.2.isEmpty || !(er.2.all (fun c => isDig c)) then none
      else some (p.neg, p.ip, p.fp,
        if er.1 then -(charsNat er.2 : Int) else (charsNat er.2 : Int))

/-- Modelled from the spec: write the mantissa digit block `md` with the
decimal mark shifted to (integer) position `q`: zeros are appended when the
mark lands past the digits, and a leading `0.` with zero padding is produced
when the shift consumes all integer digits. -/
def renderShift (neg : Bool) (md : List Char) (q : Int) : List Char :=
  signChars neg ++
    (if q ≤ 0 then '0' :: '.' :: (List.replicate (-q).toNat '0' ++ md)
     else if q < md.length then md.take q.toNat ++ '.' :: md.drop q.toNat
     else md ++ List.replicate (q.toNat - md.length) '0')

/-- Modelled from the spec: `_expand_exponential_to_full_string` of
`great_tables/_formats.py` (not among the sources at hand): turn an
exponential-notation string into the equivalent plain decimal string; a string
without an exponent marker is returned unchanged and a malformed string with a
marker is rejected. -/
def expand_exponential (s : List Char) : Option (List Char) :=
  if hasMarker s then
    match parseExp s with
    | none => none
    | some (neg, ip, fp, ex) => some (renderShift neg (ip ++ fp) ((ip.length : Int) + ex))
  else some s

/-- Expand exponential notation if present, then parse the plain literal. -/
def pipelineParse (s : List Char) : Option Parts :=
  (expand_exponential s).bind parsePlain

/-- Round-half-up of `T / D` as an integer, by exact natural arithmetic. -/
def roundHalfUpScaled (T D : Nat) : Nat := (T + D / 2) / D

/-- Modelled from the spec: fixed-decimals rounding of the digit sequence of
`p` at `n` fractional digits, by round-half-up on the exact decimal digits;
returns the rounded integer digit string and the `n` fractional digits. -/
def roundedFixed (p : Parts) (n : Nat) : List Char × List Char :=
  let L := p.fp.length
  if n < L then
    let R := roundHalfUpScaled (charsNat p.ip * 10 ^ L + charsNat p.fp) (10 ^ (L - n))
    (natChars (R / 10 ^ n), if n = 0 then [] else natCharsPad n (R % 10 ^ n))
  else (natChars (charsNat p.ip), p.fp ++ List.replicate (n - L) '0')

/-- Modelled from the spec: in fixed-decimals mode the fractional tail of the
output after trailing-zero suppression (`dtz`) and decimal-mark suppression
(`dtdm`): an empty fractional part keeps a bare decimal mark unless `dtdm`. -/
def tailFixed (f0 : List Char) (dtz dtdm : Bool) : List Char :=
  let f2 := if dtz then dropTrailingZeros f0 else f0
  if f2.isEmpty then (if dtdm then [] else ['.']) else '.' :: f2

/-- Modelled from the spec: the decimal position of the first significant
digit of `p`: the number of integer digits for values at least one, minus the
count of leading fractional zeros for values below one. -/
def sigExponent (p : Parts) : Int :=
  if charsNat p.ip = 0 then -(((p.fp.takeWhile (fun c => c == '0')).length : Int))
  else ((natChars (charsNat p.ip)).length : Int)

/-- Modelled from the spec: significant-figures formatting: round-half-up at
the `n`-th significant digit (counted from the first nonzero digit); when the
rounding position is at or right of the units digit the value is rendered with
`n - sigExponent` fractional digits, a bare decimal mark being kept for
integer-valued inputs whose `n`-th significant digit is the units digit;
otherwise the rounded digits are zero-padded up to the units position with no
decimal mark. Returns the integer digit string and the remaining tail. -/
def formatSigParts (p : Parts) (n : Nat) : List Char × List Char :=
  if charsNat p.ip = 0 ∧ charsNat p.fp = 0 then (['0'], [])
  else
    let dec : Int := (n : Int) - sigExponent p
    if 0 ≤ dec then
      let r := roundedFixed p dec.toNat
      (r.1, if dec = 0 then (if charsNat p.fp = 0 then ['.'] else []) else '.' :: r.2)
    else
      let m := (-dec).toNat
      let L := p.fp.length
      let R := roundHalfUpScaled (charsNat p.ip * 10 ^ L + charsNat p.fp) (10 ^ (m + L))
      (natChars R ++ List.replicate m '0', [])

/-- Group a character list into sublists of three from the left. -/
def chunk3 : List Char → List (List Char)
  | a :: b :: c :: rest => [a, b, c] :: chunk3 rest
  | [] => []
  | l => [l]

/-- Group a digit string into clusters of three digits from the right. -/
def groupsFromRight (l : List Char) : List (List Char) :=
  ((chunk3 l.reverse).map List.reverse).reverse

/-- Modelled from the spec: thousands-separator insertion: join the clusters
of three digits (from the right) of the integer part with the separator. -/
def insertSep (sep : List Char) (l : List Char) : List Char :=
  List.intercalate sep (groupsFromRight l)

/-- Modelled from the spec: `_format_number_with_separator` of
`great_tables/_formats.py` (not among the sources at hand): group the integer
part of a numeric string with the separator, leaving the sign, the decimal
mark and the fractional digits untouched. -/
def format_number_with_separator (s sep : List Char) : List Char :=
  let sr := splitSign s
  let a := sr.2.takeWhile (fun c => c != '.')
  signChars sr.1 ++ insertSep sep a ++ sr.2.drop a.length

/-- Render a parsed value in fixed-decimals mode. -/
def renderFixed (p : Parts) (n : Nat) (dtz dtdm : Bool) (sep : List Char) : List Char :=
  let r := roundedFixed p n
  signChars p.neg ++ insertSep sep r.1 ++ tailFixed r.2 dtz dtdm

/-- Render a parsed value in significant-figures mode (the suppression flags
do not apply in this mode). -/
def renderSig (p : Parts) (n : Nat) (sep : List Char) : List Char :=
  let r := formatSigParts p n
  signChars p.neg ++ insertSep sep r.1 ++ r.2

/-- Modelled from the spec: the error taxonomy of the formatting engine. -/
inductive FormatError where
  | invalidNumericLiteral
  | invalidPrecisionSpec
deriving DecidableEq

/-- Modelled from the spec: `format_number`: format a numeric string with
either fixed decimals (default two) or significant figures; both precision
modes at once, or a negative precision, is an `invalidPrecisionSpec` error;
an unparsable literal is an `invalidNumericLiteral` error. -/
def format_number (s : List Char) (decimals n_sigfig : Option Int)
    (dtz dtdm : Bool) (sep : List Char) : Except FormatError (List Char) :=
  match decimals, n_sigfig with
  | some _, some _ => .error .invalidPrecisionSpec
  | _, some n =>
    if n < 0 then .error .invalidPrecisionSpec
    else
      match pipelineParse s with
      | none => .error .invalidNumericLiteral
      | some p => .ok (renderSig p n.toNat sep)
  | d, none =>
    let k := d.getD 2
    if k < 0 then .error .invalidPrecisionSpec
    else
      match pipelineParse s with
      | none => .error .invalidNumericLiteral
      | some p => .ok (renderFixed p k.toNat dtz dtdm sep)

/-- The rational magnitude denoted by the digit sequences of `p` (sign
ignored). -/
def magQ (p : Parts) : ℚ :=
  ((charsNat p.ip * 10 ^ p.fp.length + charsNat p.fp : ℕ) : ℚ) / 10 ^ p.fp.length

/-- Modelled from the spec: conventional round-half-up of `q` at `n` decimal
places, stated over exact rational arithmetic: the result scaled by `10 ^ n`. -/
def specRoundHalfUp (q : ℚ) (n : ℕ) : ℤ := ⌊q * 10 ^ n + 1 / 2⌋

/-- Whether a string, as the arguments of `format_number`, denotes a valid
(possibly exponential) decimal literal. -/
def validLit (s : List Char) : Bool :=
  if hasMarker s then (parseExp s).isSome else (parsePlain s).isSome

/-- The combined value of an unsigned plain decimal string, read as integer
digits, an optional mark, and fractional digits. -/
def plainValTotal (t : List Char) : ℚ :=
  let sr := splitSign t
  let a := sr.2.takeWhile (fun c => c != '.')
  let b := (sr.2.drop a.length).drop 1
  (if sr.1 then -1 else 1) * ((charsNat a : ℚ) + (charsNat b : ℚ) / 10 ^ b.length)

/-- Trailing zero / decimal mark suppression applied to an already formatted
string: trim the fractional part, and the mark itself when the fraction
empties. -/
def applyTrim (dtz dtdm : Bool) (t : List Char) : List Char :=
  if ('.' ∈ t) then
    let a := t.takeWhile (fun c => c != '.')
    let b := (t.drop a.length).drop 1
    let b2 := if dtz then dropTrailingZeros b else b
    if b2.isEmpty then (if dtdm then a else a ++ ['.']) else a ++ '.' :: b2
  else t

/-- A row of the table stub: its original index and its group label. -/
structure RowInfo where
  idx : Nat
  group : String
deriving DecidableEq

/-- Modelled from the spec: `get_row_reorder_df` of
`great_tables/utils_render_common.py` (not among the sources at hand), which
the spec describes as a simple index-remapping utility: with no groups the
rows keep their order; otherwise the rows are stably regrouped following the
order of the group list, and each row's final position is paired with its
original index. -/
def get_row_reorder_df (groups : List String) (stub : List RowInfo) : List (Nat × Nat) :=
  let ordered := match groups with
    | [] => stub
    | _ => groups.flatMap (fun g => stub.filter (fun r => r.group == g))
  (List.range stub.length).zip (ordered.map (fun r => r.idx))

/-- The unsigned digit block written by `renderShift`. -/
def shiftBody (md : List Char) (q : Int) : List Char :=
  if q ≤ 0 then '0' :: '.' :: (List.replicate (-q).toNat '0' ++ md)
  else if q < md.length then md.take q.toNat ++ '.' :: md.drop q.toNat
  else md ++ List.replicate (q.toNat - md.length) '0'

/-- The concatenated shape `sign ++ digits ++ optional (mark ++ digits)` of a
plain literal. -/
def plainShape (neg : Bool) (X Y : List Char) : List Char :=
  signChars neg ++ X ++ (if Y.isEmpty then [] else '.' :: Y)

/-- The effective requested precision of a `format_number` call: `n_sigfig`
when given, otherwise `decimals`, defaulting to two. -/
def effPrec (decimals n_sigfig : Option Int) : Int :=
  match n_sigfig with
  | some n => n
  | none => decimals.getD 2

/-- A sign occurs at most once and only at the very front: no `'+'` at all and
no `'-'` beyond the first character. -/
def signOnceFront (t : List Char) : Prop := '+' ∉ t ∧ '-' ∉ t.drop 1

theorem charsNat_foldl (x : Nat) (l : List Char) :
    l.foldl (fun a c => 10 * a + digitVal c) x = x * 10 ^ l.length + charsNat l := by
  induction l generalizing x with
  | nil => simp [charsNat]
  | cons c r ih =>
    simp only [List.foldl_cons, charsNat, List.length_cons]
    rw [ih (10 * x + digitVal c), ih (10 * 0 + digitVal c)]
    ring

theorem charsNat_cons (c : Char) (l : List Char) :
    charsNat (c :: l) = digitVal c * 10 ^ l.length + charsNat l := by
  simpa [charsNat] using charsNat_foldl (10 * 0 + digitVal c) l

theorem charsNat_append (a b : List Char) :
    charsNat (a ++ b) = charsNat a * 10 ^ b.length + charsNat b := by
  simp only [charsNat, List.foldl_append]
  exact charsNat_foldl _ b

theorem digitVal_zeroChar : digitVal '0' = 0 := by decide

theorem charsNat_replicate_zero (k : Nat) : charsNat (List.replicate k '0') = 0 := by
  induction k with
  | zero => rfl
  | succ m ih => rw [List.replicate_succ, charsNat_cons, ih, digitVal_zeroChar]; simp

theorem charsNat_zeros_append (k : Nat) (l : List Char) :
    charsNat (List.replicate k '0' ++ l) = charsNat l := by
  rw [charsNat_append, charsNat_replicate_zero]
  ring

theorem digitChar_toNat (d : Nat) (hd : d < 10) : (digitChar d).toNat = 48 + d := by
  interval_cases d <;> decide

theorem digitVal_digitChar (d : Nat) (hd : d < 10) : digitVal (digitChar d) = d := by
  rw [digitVal, digitChar_toNat d hd]
  omega

theorem isDig_digitChar (d : Nat) (hd : d < 10) : isDig (digitChar d) = true := by
  interval_cases d <;> decide

theorem natCharsAux_charsNat : ∀ f n, n ≤ f → charsNat (natCharsAux f n) = n := by
  intro f
  induction f with
  | zero => intro n hn; interval_cases n; rfl
  | succ m ih =>
    intro n hn
    by_cases h0 : n = 0
    · simp [natCharsAux, h0, charsNat]
    · have hdiv : n / 10 ≤ m := by omega
      rw [natCharsAux, if_neg h0, charsNat_append, ih _ hdiv, charsNat_cons]
      have : digitVal (digitChar (n % 10)) = n % 10 := digitVal_digitChar _ (Nat.mod_lt _ (by omega))
      simp [charsNat, this]
      omega

theorem charsNat_natChars (n : Nat) : charsNat (natChars n) = n := by
  by_cases h : n = 0
  · subst h; decide
  · rw [natChars, if_neg h]; exact natCharsAux_charsNat n n le_rfl

theorem natCharsAux_digits : ∀ f n, ∀ c ∈ natCharsAux f n, isDig c = true := by
  intro f
  induction f with
  | zero => intro n c hc; simp [natCharsAux] at hc
  | succ m ih =>
    intro n c hc
    by_cases h0 : n = 0
    · simp [natCharsAux, h0] at hc
    · rw [natCharsAux, if_neg h0] at hc
      rcases List.mem_append.mp hc with h | h
      · exact ih _ _ h
      · rcases List.mem_singleton.mp h with rfl
        exact isDig_digitChar _ (Nat.mod_lt _ (by omega))

theorem natChars_digits (n : Nat) : ∀ c ∈ natChars n, isDig c = true := by
  by_cases h : n = 0
  · subst h; decide
  · rw [natChars, if_neg h]; exact natCharsAux_digits n n

theorem natCharsAux_length_le : ∀ f n k, n ≤ f → n < 10 ^ k → (natCharsAux f n).length ≤ k := by
  intro f
  induction f with
  | zero => intro n k hn _; interval_cases n; simp [natCharsAux]
  | succ m ih =>
    intro n k hn hk
    by_cases h0 : n = 0
    · simp [natCharsAux, h0]
    · have hk1 : 1 ≤ k := by
        by_contra h
        have : k = 0 := by omega
        subst this
        simp at hk
        omega
      rw [natCharsAux, if_neg h0, List.length_append, List.length_singleton]
      have hdiv : n / 10 < 10 ^ (k - 1) := by
        have h10 : (10 : Nat) ^ k = 10 ^ (k - 1) * 10 := by
          conv_lhs => rw [show k = (k - 1) + 1 by omega]
          rw [pow_succ]
        apply Nat.div_lt_of_lt_mul
        omega
      have := ih (n / 10) (k - 1) (by omega) hdiv
      omega

theorem natChars_length_le (r k : Nat) (hr : r < 10 ^ k) (hk : 1 ≤ k) :
    (natChars r).length ≤ k := by
  by_cases h : r = 0
  · subst h; simpa [natChars] using hk
  · rw [natChars, if_neg h]; exact natCharsAux_length_le r r k le_rfl hr

theorem natCharsPad_length (k r : Nat) (hr : r < 10 ^ k) (hk : 1 ≤ k) :
    (natCharsPad k r).length = k := by
  rw [natCharsPad, List.length_append, List.length_replicate]
  have := natChars_length_le r k hr hk
  omega

theorem charsNat_natCharsPad (k r : Nat) : charsNat (natCharsPad k r) = r := by
  rw [natCharsPad, charsNat_zeros_append, charsNat_natChars]

theorem natCharsPad_digits (k r : Nat) : ∀ c ∈ natCharsPad k r, isDig c = true := by
  intro c hc
  rcases List.mem_append.mp hc with h | h
  · rcases List.eq_of_mem_replicate h with rfl; decide
  · exact natChars_digits r c h

theorem natChars_ne_nil (n : Nat) : natChars n ≠ [] := by
  by_cases h : n = 0
  · subst h; decide
  · obtain ⟨m, rfl⟩ : ∃ m, n = m + 1 := ⟨n - 1, by omega⟩
    rw [natChars, if_neg h, natCharsAux, if_neg h]
    simp

theorem charsNat_lt (l : List Char) (hd : ∀ c ∈ l, isDig c = true) :
    charsNat l < 10 ^ l.length := by
  induction l with
  | nil => simp [charsNat]
  | cons c r ih =>
    rw [charsNat_cons, List.length_cons, pow_succ]
    have hc := hd c (List.mem_cons_self c r)
    have hv : digitVal c ≤ 9 := by
      simp [isDig] at hc
      simp [digitVal]
      omega
    have hr := ih (fun x hx => hd x (List.mem_cons_of_mem c hx))
    calc digitVal c * 10 ^ r.length + charsNat r
        ≤ 9 * 10 ^ r.length + charsNat r := by
          exact Nat.add_le_add_right (Nat.mul_le_mul_right _ hv) _
      _ < 9 * 10 ^ r.length + 10 ^ r.length := by omega
      _ = 10 ^ r.length * 10 := by ring

theorem charsNat_singleton (c : Char) : charsNat [c] = digitVal c := by
  simp [charsNat]

theorem natCharsAux_zero (f : Nat) : natCharsAux f 0 = [] := by
  cases f <;> simp [natCharsAux]

theorem digitChar_ne_zeroChar (d : Nat) (hd : d < 10) (h0 : d ≠ 0) : digitChar d ≠ '0' := by
  interval_cases d <;> simp_all <;> decide

theorem natCharsAux_head : ∀ f n, n ≠ 0 → n ≤ f →
    ∃ c cs, natCharsAux f n = c :: cs ∧ c ≠ '0' := by
  intro f
  induction f with
  | zero => intro n h0 hn; omega
  | succ m ih =>
    intro n h0 hn
    rw [natCharsAux, if_neg h0]
    by_cases hq : n / 10 = 0
    · rw [hq, natCharsAux_zero]
      refine ⟨digitChar (n % 10), [], rfl, ?_⟩
      exact digitChar_ne_zeroChar _ (Nat.mod_lt _ (by omega)) (by omega)
    · obtain ⟨c, cs, hc, hne⟩ := ih (n / 10) hq (by omega)
      exact ⟨c, cs ++ [digitChar (n % 10)], by rw [hc]; rfl, hne⟩

theorem natChars_head_ne (n : Nat) (h : n ≠ 0) : (natChars n).head? ≠ some '0' := by
  rw [natChars, if_neg h]
  obtain ⟨c, cs, hc, hne⟩ := natCharsAux_head n n h le_rfl
  rw [hc]
  simpa using hne

theorem isDig_toNat {c : Char} (h : isDig c = true) : 48 ≤ c.toNat ∧ c.toNat ≤ 57 := by
  simpa [isDig] using h

theorem digitChar_digitVal {c : Char} (h : isDig c = true) : digitChar (digitVal c) = c := by
  have hb := isDig_toNat h
  rw [digitChar, digitVal]
  have : 48 + (c.toNat - 48) = c.toNat := by omega
  rw [this, Char.ofNat_toNat]

theorem digitVal_le_nine {c : Char} (h : isDig c = true) : digitVal c ≤ 9 := by
  have hb := isDig_toNat h
  rw [digitVal]
  omega

theorem digitVal_pos {c : Char} (h : isDig c = true) (h0 : c ≠ '0') : 1 ≤ digitVal c := by
  have hb := isDig_toNat h
  rw [digitVal]
  rcases Nat.lt_or_ge 48 c.toNat with hgt | hle
  · omega
  · exfalso
    apply h0
    have : c.toNat = 48 := by omega
    rw [← Char.ofNat_toNat c, this]

theorem charsNat_head_lower (c : Char) (l : List Char) (hc : isDig c = true) (hne : c ≠ '0') :
    10 ^ l.length ≤ charsNat (c :: l) := by
  rw [charsNat_cons]
  have h1 := digitVal_pos hc hne
  calc 10 ^ l.length = 1 * 10 ^ l.length := (one_mul _).symm
    _ ≤ digitVal c * 10 ^ l.length := Nat.mul_le_mul_right _ h1
    _ ≤ digitVal c * 10 ^ l.length + charsNat l := Nat.le_add_right _ _

theorem charsNat_pos_of_head (A : List Char) (hA : ∀ c ∈ A, isDig c = true)
    (hh : A.head? ≠ some '0') (hne : A ≠ []) : 1 ≤ charsNat A := by
  rcases A with _ | ⟨c, r⟩
  · exact absurd rfl hne
  · have h1 := charsNat_head_lower c r (hA c (List.mem_cons_self c r)) (by simpa using hh)
    have h2 : 1 ≤ 10 ^ r.length := Nat.one_le_pow _ _ (by omega)
    omega

theorem charsNat_inj : ∀ A B : List Char, (∀ c ∈ A, isDig c = true) →
    (∀ c ∈ B, isDig c = true) → A.head? ≠ some '0' → B.head? ≠ some '0' →
    charsNat A = charsNat B → A = B := by
  intro A
  induction A using List.reverseRecOn with
  | nil =>
    intro B _ hBd _ hBh hval
    rcases List.eq_nil_or_concat B with rfl | ⟨bs, b, rfl⟩
    · rfl
    · exfalso
      simp only [List.concat_eq_append] at hBd hBh hval
      have h1 := charsNat_pos_of_head (bs ++ [b]) hBd hBh (by simp)
      rw [← hval] at h1
      simp [charsNat] at h1
  | append_singleton as a ih =>
    intro B hAd hBd hAh hBh hval
    rcases List.eq_nil_or_concat B with rfl | ⟨bs, b, rfl⟩
    · exfalso
      have h1 := charsNat_pos_of_head (as ++ [a]) hAd hAh (by simp)
      rw [hval] at h1
      simp [charsNat] at h1
    · simp only [List.concat_eq_append] at hBd hBh hval ⊢
      have hA : charsNat (as ++ [a]) = 10 * charsNat as + digitVal a := by
        rw [charsNat_append, charsNat_singleton, List.length_singleton, pow_one]
        ring
      have hB : charsNat (bs ++ [b]) = 10 * charsNat bs + digitVal b := by
        rw [charsNat_append, charsNat_singleton, List.length_singleton, pow_one]
        ring
      have hda : isDig a = true := hAd a (by simp)
      have hdb : isDig b = true := hBd b (by simp)
      have hva := digitVal_le_nine hda
      have hvb := digitVal_le_nine hdb
      rw [hA, hB] at hval
      have hveq : digitVal a = digitVal b := by omega
      have hceq : charsNat as = charsNat bs := by omega
      have hab : a = b := by
        rw [← digitChar_digitVal hda, ← digitChar_digitVal hdb, hveq]
      have hasbs : as = bs := by
        apply ih bs (fun c hc => hAd c (by simp [hc])) (fun c hc => hBd c (by simp [hc]))
        · rcases as with _ | ⟨c, r⟩
          · simp
          · simpa using hAh
        · rcases bs with _ | ⟨c, r⟩
          · simp
          · simpa using hBh
        · exact hceq
      rw [hab, hasbs]

theorem natChars_charsNat (A : List Char) (hd : ∀ c ∈ A, isDig c = true)
    (hne : A ≠ []) (hh : A.head? ≠ some '0') : natChars (charsNat A) = A := by
  have hv : charsNat A ≠ 0 := by
    have := charsNat_pos_of_head A hd hh hne
    omega
  apply charsNat_inj
  · exact natChars_digits _
  · exact hd
  · exact natChars_head_ne _ hv
  · exact hh
  · rw [charsNat_natChars]

theorem isDig_ne_dot {c : Char} (h : isDig c = true) : c ≠ '.' := by
  intro hc; subst hc; exact absurd h (by decide)

theorem isDig_ne_dash {c : Char} (h : isDig c = true) : c ≠ '-' := by
  intro hc; subst hc; exact absurd h (by decide)

theorem isDig_ne_plus {c : Char} (h : isDig c = true) : c ≠ '+' := by
  intro hc; subst hc; exact absurd h (by decide)

theorem isDig_ne_e {c : Char} (h : isDig c = true) : c ≠ 'e' := by
  intro hc; subst hc; exact absurd h (by decide)

theorem isDig_ne_E {c : Char} (h : isDig c = true) : c ≠ 'E' := by
  intro hc; subst hc; exact absurd h (by decide)

theorem takeWhile_of_all {p : Char → Bool} (A : List Char) (h : ∀ a ∈ A, p a = true) :
    A.takeWhile p = A := by
  induction A with
  | nil => rfl
  | cons c r ih =>
    rw [List.takeWhile_cons, h c (List.mem_cons_self c r)]
    simp [ih (fun a ha => h a (List.mem_cons_of_mem c ha))]

theorem dropWhile_of_all {p : Char → Bool} (A : List Char) (h : ∀ a ∈ A, p a = true) :
    A.dropWhile p = [] := by
  induction A with
  | nil => rfl
  | cons c r ih =>
    rw [List.dropWhile_cons, h c (List.mem_cons_self c r)]
    simp [ih (fun a ha => h a (List.mem_cons_of_mem c ha))]

theorem takeWhile_append_stop {p : Char → Bool} (A : List Char) (c : Char) (B : List Char)
    (hA : ∀ a ∈ A, p a = true) (hc : p c = false) :
    (A ++ c :: B).takeWhile p = A := by
  induction A with
  | nil => simp [List.takeWhile_cons, hc]
  | cons x r ih =>
    rw [List.cons_append, List.takeWhile_cons, hA x (List.mem_cons_self x r)]
    simp [ih (fun a ha => hA a (List.mem_cons_of_mem x ha))]

theorem dropWhile_append_stop {p : Char → Bool} (A : List Char) (c : Char) (B : List Char)
    (hA : ∀ a ∈ A, p a = true) (hc : p c = false) :
    (A ++ c :: B).dropWhile p = c :: B := by
  induction A with
  | nil => simp [List.dropWhile_cons, hc]
  | cons x r ih =>
    rw [List.cons_append, List.dropWhile_cons, hA x (List.mem_cons_self x r)]
    simp [ih (fun a ha => hA a (List.mem_cons_of_mem x ha))]

theorem splitSign_not_sign (s : List Char) (h : ∀ c, s.head? = some c → c ≠ '-' ∧ c ≠ '+') :
    splitSign s = (false, s) := by
  cases s with
  | nil => rfl
  | cons c r =>
    have hc := h c rfl
    simp [splitSign, hc.1, hc.2]

theorem splitSign_signChars (neg : Bool) (r : List Char)
    (h : ∀ c, r.head? = some c → c ≠ '-' ∧ c ≠ '+') :
    splitSign (signChars neg ++ r) = (neg, r) := by
  cases neg with
  | false => simpa [signChars] using splitSign_not_sign r h
  | true => simp [signChars, splitSign]

theorem hasMarker_eq_false (s : List Char) (h : ∀ c ∈ s, c ≠ 'e' ∧ c ≠ 'E') :
    hasMarker s = false := by
  rw [hasMarker, List.any_eq_false]
  intro c hc
  have := h c hc
  simp [this.1, this.2]

theorem parsePlain_shape (neg : Bool) (X Y : List Char)
    (hX : ∀ c ∈ X, isDig c = true) (hY : ∀ c ∈ Y, isDig c = true)
    (hne : ¬(X = [] ∧ Y = [])) :
    parsePlain (plainShape neg X Y) = some ⟨neg, X, Y⟩ := by
  have hsplit : splitSign (plainShape neg X Y) =
      (neg, X ++ (if Y.isEmpty then [] else '.' :: Y)) := by
    rw [plainShape, List.append_assoc]
    apply splitSign_signChars
    intro c hc
    rcases X with _ | ⟨x, r⟩
    · rcases Y with _ | ⟨y, t⟩
      · exact absurd ⟨rfl, rfl⟩ hne
      · simp at hc
        subst hc
        exact ⟨by decide, by decide⟩
    · simp at hc
      subst hc
      have := hX x (List.mem_cons_self x r)
      exact ⟨isDig_ne_dash this, isDig_ne_plus this⟩
  rcases Y with _ | ⟨y, t⟩
  · rw [parsePlain, hsplit]
    simp only [List.isEmpty_nil, if_true, List.append_nil]
    rw [takeWhile_of_all X hX, dropWhile_of_all X hX]
    have hXne : X ≠ [] := fun hX0 => hne ⟨hX0, rfl⟩
    simp [hXne]
  · rw [parsePlain, hsplit]
    simp only [List.isEmpty_cons, if_neg Bool.false_ne_true]
    rw [takeWhile_append_stop X '.' (y :: t) hX (by decide),
      dropWhile_append_stop X '.' (y :: t) hX (by decide)]
    simp only []
    have hall : (y :: t).all (fun c => isDig c) = true := by
      rw [List.all_eq_true]
      exact hY
    simp [hall]

theorem parsePlain_digits (s : List Char) (p : Parts) (h : parsePlain s = some p) :
    (∀ c ∈ p.ip, isDig c = true) ∧ (∀ c ∈ p.fp, isDig c = true) ∧ ¬(p.ip = [] ∧ p.fp = []) := by
  rw [parsePlain] at h
  split at h
  · split at h
    · exact absurd h (by simp)
    · rename_i heq hne
      rcases Option.some_injective _ h with rfl
      refine ⟨fun c hc => List.mem_takeWhile_imp hc, by simp, ?_⟩
      intro hcon
      dsimp only at hcon
      rw [hcon.1] at hne
      simp at hne
  · split at h
    · rename_i heq hcond
      rcases Option.some_injective _ h with rfl
      rw [Bool.and_eq_true, List.all_eq_true] at hcond
      refine ⟨fun c hc => List.mem_takeWhile_imp hc, hcond.1, ?_⟩
      intro hcon
      dsimp only at hcon
      have h2 := hcond.2
      rw [hcon.1, hcon.2] at h2
      simp at h2
    · exact absurd h (by simp)
  · exact absurd h (by simp)

theorem charsNat_append_zeros (l : List Char) (k : Nat) :
    charsNat (l ++ List.replicate k '0') = charsNat l * 10 ^ k := by
  rw [charsNat_append, charsNat_replicate_zero, List.length_replicate]
  ring

theorem roundedFixed_snd_length (p : Parts) (n : Nat) : ((roundedFixed p n).2).length = n := by
  rw [roundedFixed]
  by_cases h : n < p.fp.length
  · rw [if_pos h]
    by_cases h0 : n = 0
    · simp [h0]
    · simp only [if_neg h0]
      exact natCharsPad_length n _ (Nat.mod_lt _ (Nat.pos_pow_of_pos n (by omega))) (by omega)
  · rw [if_neg h]
    simp only [List.length_append, List.length_replicate]
    omega

theorem roundedFixed_snd_digits (p : Parts) (n : Nat) (hfp : ∀ c ∈ p.fp, isDig c = true) :
    ∀ c ∈ (roundedFixed p n).2, isDig c = true := by
  rw [roundedFixed]
  by_cases h : n < p.fp.length
  · rw [if_pos h]
    by_cases h0 : n = 0
    · simp [h0]
    · simp only [if_neg h0]
      exact natCharsPad_digits n _
  · rw [if_neg h]
    intro c hc
    simp only [List.mem_append] at hc
    rcases hc with hc | hc
    · exact hfp c hc
    · rcases List.eq_of_mem_replicate hc with rfl; decide

theorem roundedFixed_fst_digits (p : Parts) (n : Nat) :
    ∀ c ∈ (roundedFixed p n).1, isDig c = true := by
  rw [roundedFixed]
  by_cases h : n < p.fp.length
  · rw [if_pos h]; exact natChars_digits _
  · rw [if_neg h]; exact natChars_digits _

theorem roundedFixed_fst_ne_nil (p : Parts) (n : Nat) : (roundedFixed p n).1 ≠ [] := by
  rw [roundedFixed]
  by_cases h : n < p.fp.length
  · rw [if_pos h]; exact natChars_ne_nil _
  · rw [if_neg h]; exact natChars_ne_nil _

theorem roundHalfUpScaled_floor (T k : Nat) (hk : 1 ≤ k) :
    ((roundHalfUpScaled T (10 ^ k) : ℕ) : ℤ) = ⌊(T : ℚ) / 10 ^ k + 1 / 2⌋ := by
  have hsplit : (10 : ℕ) ^ k = 2 * (5 * 10 ^ (k - 1)) := by
    conv_lhs => rw [show k = 1 + (k - 1) by omega]
    rw [pow_add, pow_one]
    ring
  have hhalf : (10 : ℕ) ^ k / 2 = 5 * 10 ^ (k - 1) := by omega
  have hq : (T : ℚ) / 10 ^ k + 1 / 2 = ((2 * T + 10 ^ k : ℕ) : ℚ) / ((2 * 10 ^ k : ℕ) : ℚ) := by
    push_cast
    have : ((10 : ℚ) ^ k) ≠ 0 := by positivity
    field_simp
    ring
  rw [hq]
  have hfl : (⌊(((2 * T + 10 ^ k : ℕ) : ℤ) : ℚ) / (((2 * 10 ^ k : ℕ) : ℤ) : ℚ)⌋ : ℤ)
      = ((2 * T + 10 ^ k : ℕ) : ℤ) / ((2 * 10 ^ k : ℕ) : ℤ) := by
    have := Rat.floor_intCast_div_natCast ((2 * T + 10 ^ k : ℕ) : ℤ) (2 * 10 ^ k)
    simpa using this
  have hcast : (((2 * T + 10 ^ k : ℕ) : ℚ)) = (((2 * T + 10 ^ k : ℕ) : ℤ) : ℚ) := by push_cast; ring
  have hcast2 : (((2 * 10 ^ k : ℕ) : ℚ)) = (((2 * 10 ^ k : ℕ) : ℤ) : ℚ) := by push_cast; ring
  rw [hcast, hcast2, hfl, ← Int.natCast_div]
  congr 1
  rw [roundHalfUpScaled, hhalf]
  conv_rhs => rw [hsplit]
  rw [show 2 * T + 2 * (5 * 10 ^ (k - 1)) = 2 * (T + 5 * 10 ^ (k - 1)) by ring,
    Nat.mul_div_mul_left _ _ (by omega : 0 < 2), hsplit]

theorem floor_intCast_add_half (z : ℤ) : ⌊(z : ℚ) + 1 / 2⌋ = z := by
  rw [Int.floor_int_add]
  norm_num

theorem floor_natCast_add_half (m : ℕ) : ⌊(m : ℚ) + 1 / 2⌋ = (m : ℤ) := by
  have h : ((m : ℚ)) = ((m : ℤ) : ℚ) := by push_cast; ring
  rw [h, floor_intCast_add_half]

theorem roundedFixed_value (p : Parts) (n : Nat) :
    ((charsNat (roundedFixed p n).1 * 10 ^ n + charsNat (roundedFixed p n).2 : ℕ) : ℤ)
      = specRoundHalfUp (magQ p) n := by
  rcases lt_or_ge n p.fp.length with h | h
  · set T := charsNat p.ip * 10 ^ p.fp.length + charsNat p.fp with hT
    set R := roundHalfUpScaled T (10 ^ (p.fp.length - n)) with hR
    have hpair : roundedFixed p n
        = (natChars (R / 10 ^ n), if n = 0 then [] else natCharsPad n (R % 10 ^ n)) := by
      rw [roundedFixed, if_pos h]
    rw [hpair]
    simp only [charsNat_natChars]
    have hmod : charsNat (if n = 0 then [] else natCharsPad n (R % 10 ^ n)) = R % 10 ^ n := by
      by_cases h0 : n = 0
      · subst h0; simp [charsNat, Nat.mod_one]
      · rw [if_neg h0, charsNat_natCharsPad]
    rw [hmod]
    have hdm : R / 10 ^ n * 10 ^ n + R % 10 ^ n = R := by
      rw [mul_comm]; exact Nat.div_add_mod R (10 ^ n)
    rw [hdm]
    have harg : magQ p * 10 ^ n = (T : ℚ) / 10 ^ (p.fp.length - n) := by
      rw [magQ, div_mul_eq_mul_div,
        div_eq_div_iff (by positivity : ((10:ℚ) ^ p.fp.length) ≠ 0)
          (by positivity : ((10:ℚ) ^ (p.fp.length - n)) ≠ 0), mul_assoc, ← pow_add]
      congr 2
      omega
    rw [specRoundHalfUp, harg, ← roundHalfUpScaled_floor T (p.fp.length - n) (by omega)]
  · have hpair : roundedFixed p n
        = (natChars (charsNat p.ip), p.fp ++ List.replicate (n - p.fp.length) '0') := by
      rw [roundedFixed, if_neg (not_lt.mpr h)]
    rw [hpair]
    simp only [charsNat_natChars, charsNat_append_zeros]
    have hNat : charsNat p.ip * 10 ^ n + charsNat p.fp * 10 ^ (n - p.fp.length)
        = (charsNat p.ip * 10 ^ p.fp.length + charsNat p.fp) * 10 ^ (n - p.fp.length) := by
      rw [add_mul, mul_assoc, ← pow_add]
      congr 3
      omega
    rw [hNat]
    have harg : magQ p * 10 ^ n
        = (((charsNat p.ip * 10 ^ p.fp.length + charsNat p.fp) * 10 ^ (n - p.fp.length) : ℕ) : ℚ) := by
      rw [magQ]
      push_cast
      rw [div_mul_eq_mul_div,
        div_eq_iff (by positivity : ((10:ℚ) ^ p.fp.length) ≠ 0), mul_assoc, ← pow_add]
      congr 2
      omega
    rw [specRoundHalfUp, harg, floor_natCast_add_half]

theorem intercalate_singleton_group (sep g : List Char) : List.intercalate sep [g] = g := by
  simp [List.intercalate, List.intersperse_singleton]

theorem intercalate_cons₂ (sep g1 g2 : List Char) (t : List (List Char)) :
    List.intercalate sep (g1 :: g2 :: t) = g1 ++ sep ++ List.intercalate sep (g2 :: t) := by
  simp [List.intercalate, List.intersperse_cons_cons]

theorem intercalate_nil_sep (gs : List (List Char)) : List.intercalate [] gs = gs.flatten := by
  induction gs with
  | nil => rfl
  | cons g t ih =>
    cases t with
    | nil => simp [intercalate_singleton_group]
    | cons g2 t2 =>
      rw [intercalate_cons₂, ih]
      simp

theorem chunk3_flatten (l : List Char) : (chunk3 l).flatten = l := by
  induction l using chunk3.induct <;> simp [chunk3, *]

theorem flatten_groupsFromRight (l : List Char) : (groupsFromRight l).flatten = l := by
  rw [groupsFromRight, ← List.reverse_flatten, chunk3_flatten, List.reverse_reverse]

theorem insertSep_nil (l : List Char) : insertSep [] l = l := by
  rw [insertSep, intercalate_nil_sep, flatten_groupsFromRight]

theorem mem_intercalate (sep : List Char) (gs : List (List Char)) (c : Char)
    (hc : c ∈ List.intercalate sep gs) : c ∈ sep ∨ c ∈ gs.flatten := by
  induction gs with
  | nil => simp [List.intercalate] at hc
  | cons g t ih =>
    cases t with
    | nil =>
      rw [intercalate_singleton_group] at hc
      right
      simpa using hc
    | cons g2 t2 =>
      rw [intercalate_cons₂] at hc
      simp only [List.mem_append] at hc
      rcases hc with (hc | hc) | hc
      · right; simp [hc]
      · left; exact hc
      · rcases ih hc with h | h
        · left; exact h
        · right
          simp only [List.flatten_cons, List.mem_append] at h ⊢
          tauto

theorem mem_insertSep (sep l : List Char) (c : Char) (hc : c ∈ insertSep sep l) :
    c ∈ sep ∨ c ∈ l := by
  rw [insertSep] at hc
  rcases mem_intercalate sep _ c hc with h | h
  · left; exact h
  · right; rwa [flatten_groupsFromRight] at h

theorem tailFixed_ff (f0 : List Char) : tailFixed f0 false false = '.' :: f0 := by
  rw [tailFixed]
  rcases f0 with _ | ⟨c, r⟩ <;> simp

theorem format_number_fixed_eq (s : List Char) (n : Nat) (dtz dtdm : Bool) (sep : List Char) :
    format_number s (some (n : Int)) none dtz dtdm sep =
      match pipelineParse s with
      | none => .error .invalidNumericLiteral
      | some p => .ok (renderFixed p n dtz dtdm sep) := by
  simp only [format_number, Option.getD_some]
  rw [if_neg (by omega : ¬((n : Int) < 0))]
  cases hp : pipelineParse s with
  | none => rfl
  | some p => simp [Int.toNat_natCast]

theorem format_number_sig_eq (s : List Char) (n : Nat) (dtz dtdm : Bool) (sep : List Char) :
    format_number s none (some (n : Int)) dtz dtdm sep =
      match pipelineParse s with
      | none => .error .invalidNumericLiteral
      | some p => .ok (renderSig p n sep) := by
  simp only [format_number]
  rw [if_neg (by omega : ¬((n : Int) < 0))]
  cases hp : pipelineParse s with
  | none => rfl
  | some p => simp [Int.toNat_natCast]

theorem pipelineParse_digits (s : List Char) (p : Parts) (h : pipelineParse s = some p) :
    (∀ c ∈ p.ip, isDig c = true) ∧ (∀ c ∈ p.fp, isDig c = true) ∧ ¬(p.ip = [] ∧ p.fp = []) := by
  rw [pipelineParse] at h
  rcases hex : expand_exponential s with _ | t
  · rw [hex] at h; simp at h
  · rw [hex] at h
    exact parsePlain_digits t p h

theorem renderFixed_ff (p : Parts) (n : Nat) :
    renderFixed p n false false []
      = (signChars p.neg ++ (roundedFixed p n).1) ++ '.' :: (roundedFixed p n).2 := by
  rw [renderFixed, insertSep_nil, tailFixed_ff, List.append_assoc]

/-- C1: for every parsed numeric input and every fixed-decimals precision `n`,
the digit sequence produced by the fixed-decimals formatter denotes exactly the
conventional round-half-up of the input's exact decimal value at `n` places
(never an intermediate binary floating-point rounding); in particular
formatting `1.005` with two fixed decimals yields `"1.01"`, not `"1.00"`. -/
theorem claim_C1 :
    (∀ (p : Parts) (n : Nat),
      ((charsNat (roundedFixed p n).1 * 10 ^ n + charsNat (roundedFixed p n).2 : ℕ) : ℤ)
        = specRoundHalfUp (magQ p) n) ∧
    format_number ("1.005").data (some 2) none false true [] = .ok ("1.01").data :=
  ⟨roundedFixed_value, rfl⟩

/-- C2: for every nonnegative integer `n` and every accepted numeric input,
formatting with `n` fixed decimals and both suppression flags off produces a
string with exactly `n` digits after the decimal mark. -/
theorem claim_C2 (s : List Char) (n : Nat) (out : List Char)
    (h : format_number s (some (n : Int)) none false false [] = .ok out) :
    ∃ a b, out = a ++ '.' :: b ∧ '.' ∉ a ∧ b.length = n ∧ ∀ c ∈ b, isDig c = true := by
  rw [format_number_fixed_eq] at h
  cases hp : pipelineParse s with
  | none => rw [hp] at h; exact absurd h (by simp)
  | some p =>
    rw [hp] at h
    have hout : out = renderFixed p n false false [] := by
      simp only [Except.ok.injEq] at h
      exact h.symm
    refine ⟨signChars p.neg ++ (roundedFixed p n).1, (roundedFixed p n).2, ?_, ?_,
      roundedFixed_snd_length p n,
      roundedFixed_snd_digits p n (pipelineParse_digits s p hp).2.1⟩
    · rw [hout, renderFixed_ff]
    · intro hdot
      rcases List.mem_append.mp hdot with hd | hd
      · cases hneg : p.neg <;> simp [signChars, hneg] at hd
      · exact absurd rfl (isDig_ne_dot (roundedFixed_fst_digits p n '.' hd))

theorem claim_C2_witness :
    format_number ("1.23456789").data (some ((4 : Nat) : Int)) none false false []
        = .ok ("1.2346").data ∧
    ∃ a b, ("1.2346").data = a ++ '.' :: b ∧ '.' ∉ a ∧ b.length = 4 ∧
      ∀ c ∈ b, isDig c = true :=
  ⟨rfl, claim_C2 (("1.23456789").data) 4 (("1.2346").data) rfl⟩

theorem parsePlain_renderShift (neg : Bool) (md : List Char) (q : Int)
    (hmd : ∀ c ∈ md, isDig c = true) (hne : md ≠ []) :
    parsePlain (renderShift neg md q) =
      some (if q ≤ 0 then ⟨neg, ['0'], List.replicate (-q).toNat '0' ++ md⟩
        else if q < md.length then ⟨neg, md.take q.toNat, md.drop q.toNat⟩
        else ⟨neg, md ++ List.replicate (q.toNat - md.length) '0', []⟩) := by
  by_cases h1 : q ≤ 0
  · rw [if_pos h1]
    have hshape : renderShift neg md q
        = plainShape neg ['0'] (List.replicate (-q).toNat '0' ++ md) := by
      rw [renderShift, if_pos h1, plainShape]
      have hem : (List.replicate (-q).toNat '0' ++ md).isEmpty = false := by
        rcases hmd' : List.replicate (-q).toNat '0' ++ md with _ | ⟨c, r⟩
        · exfalso
          exact hne (List.append_eq_nil.mp hmd').2
        · rfl
      rw [hem]
      simp
    rw [hshape]
    apply parsePlain_shape
    · intro c hc
      simp at hc
      subst hc
      decide
    · intro c hc
      rcases List.mem_append.mp hc with h | h
      · rcases List.eq_of_mem_replicate h with rfl; decide
      · exact hmd c h
    · simp
  · by_cases h2 : q < md.length
    · rw [if_neg h1, if_pos h2]
      have hqlt : q.toNat < md.length := by omega
      have hdropne : md.drop q.toNat ≠ [] := by
        intro hd
        have hlen := List.length_drop q.toNat md
        rw [hd] at hlen
        simp at hlen
        omega
      have hshape : renderShift neg md q
          = plainShape neg (md.take q.toNat) (md.drop q.toNat) := by
        rw [renderShift, if_neg h1, if_pos h2, plainShape]
        have hem : (md.drop q.toNat).isEmpty = false := by
          rcases hd : md.drop q.toNat with _ | ⟨c, r⟩
          · exact absurd hd hdropne
          · rfl
        rw [hem]
        simp [List.append_assoc]
      rw [hshape]
      apply parsePlain_shape
      · intro c hc
        exact hmd c (List.mem_of_mem_take hc)
      · intro c hc
        exact hmd c (List.mem_of_mem_drop hc)
      · intro hcon
        exact hdropne hcon.2
    · rw [if_neg h1, if_neg h2]
      have hshape : renderShift neg md q
          = plainShape neg (md ++ List.replicate (q.toNat - md.length) '0') [] := by
        rw [renderShift, if_neg h1, if_neg h2, plainShape]
        simp
      rw [hshape]
      apply parsePlain_shape
      · intro c hc
        rcases List.mem_append.mp hc with h | h
        · exact hmd c h
        · rcases List.eq_of_mem_replicate h with rfl; decide
      · simp
      · intro hcon
        exact hne (List.append_eq_nil.mp hcon.1).1

theorem parseExp_digits (s : List Char) (neg : Bool) (ip fp : List Char) (ex : Int)
    (h : parseExp s = some (neg, ip, fp, ex)) :
    (∀ c ∈ ip, isDig c = true) ∧ (∀ c ∈ fp, isDig c = true) ∧ ¬(ip = [] ∧ fp = []) := by
  rw [parseExp] at h
  split at h
  · exact absurd h (by simp)
  · rename_i m es heq
    split at h
    · exact absurd h (by simp)
    · rename_i p hparse
      dsimp only at h
      split at h
      · exact absurd h (by simp)
      · rename_i hcond
        simp only [Option.some.injEq, Prod.mk.injEq] at h
        obtain ⟨h1, h2, h3, h4⟩ := h
        subst h1; subst h2; subst h3
        exact parsePlain_digits m p hparse

theorem pipelineParse_isSome (s : List Char) : (pipelineParse s).isSome = validLit s := by
  rw [pipelineParse, expand_exponential, validLit]
  by_cases hm : hasMarker s
  · rw [if_pos hm, if_pos hm]
    rcases hpe : parseExp s with _ | ⟨neg, ip, fp, ex⟩
    · rfl
    · obtain ⟨hip, hfp, hne⟩ := parseExp_digits s neg ip fp ex hpe
      have hmd : ∀ c ∈ ip ++ fp, isDig c = true := by
        intro c hc
        rcases List.mem_append.mp hc with h | h
        · exact hip c h
        · exact hfp c h
      have hmdne : ip ++ fp ≠ [] := by
        intro hcon
        exact hne ⟨(List.append_eq_nil.mp hcon).1, (List.append_eq_nil.mp hcon).2⟩
      simp only [Option.some_bind]
      rw [parsePlain_renderShift neg (ip ++ fp) ((ip.length : Int) + ex) hmd hmdne]
      rfl
  · rw [if_neg hm, if_neg hm]
    rfl

/-- C8: in pure significant-figures mode the output is independent of the
`drop_trailing_zeros` and `drop_trailing_dec_mark` flags: all four flag
combinations produce the same formatted string (the documented limitation that
suppression does not apply in this mode). -/
theorem claim_C8 (s : List Char) (n : Int) (dtz dtdm dtz' dtdm' : Bool) (sep : List Char) :
    format_number s none (some n) dtz dtdm sep = format_number s none (some n) dtz' dtdm' sep :=
  rfl

/-- C9: `format_number` fails with `invalidPrecisionSpec` exactly when both
precision modes are supplied or the effective precision is negative, fails
with `invalidNumericLiteral` exactly when (the precision is acceptable and)
the input is not a valid possibly-exponential decimal literal, and returns a
formatted string exactly in the remaining cases. -/
theorem claim_C9 (s : List Char) (decimals n_sigfig : Option Int) (dtz dtdm : Bool)
    (sep : List Char) :
    (format_number s decimals n_sigfig dtz dtdm sep = .error .invalidPrecisionSpec ↔
      (decimals.isSome = true ∧ n_sigfig.isSome = true) ∨ effPrec decimals n_sigfig < 0) ∧
    (format_number s decimals n_sigfig dtz dtdm sep = .error .invalidNumericLiteral ↔
      ¬((decimals.isSome = true ∧ n_sigfig.isSome = true) ∨ effPrec decimals n_sigfig < 0) ∧
        validLit s = false) ∧
    ((∃ t, format_number s decimals n_sigfig dtz dtdm sep = .ok t) ↔
      ¬((decimals.isSome = true ∧ n_sigfig.isSome = true) ∨ effPrec decimals n_sigfig < 0) ∧
        validLit s = true) := by
  have hvl := pipelineParse_isSome s
  rcases decimals with _ | d <;> rcases n_sigfig with _ | n
  · simp only [format_number, effPrec, Option.isSome_none, Option.getD_none]
    by_cases hneg : (2 : Int) < 0
    · omega
    · rw [if_neg hneg]
      rcases hp : pipelineParse s with _ | p
      · rw [hp] at hvl
        simp [← hvl, hneg]
      · rw [hp] at hvl
        simp [← hvl, hneg]
  · simp only [format_number, effPrec, Option.isSome_none, Option.isSome_some]
    by_cases hneg : n < 0
    · rw [if_pos hneg]
      simp [hneg]
    · rw [if_neg hneg]
      rcases hp : pipelineParse s with _ | p
      · rw [hp] at hvl
        simp [← hvl, hneg]
      · rw [hp] at hvl
        simp [← hvl, hneg]
  · simp only [format_number, effPrec, Option.isSome_none, Option.isSome_some, Option.getD_some]
    by_cases hneg : d < 0
    · rw [if_pos hneg]
      simp [hneg]
    · rw [if_neg hneg]
      rcases hp : pipelineParse s with _ | p
      · rw [hp] at hvl
        simp [← hvl, hneg]
      · rw [hp] at hvl
        simp [← hvl, hneg]
  · simp only [format_number, effPrec, Option.isSome_some]
    simp

theorem renderFixed_tail (p : Parts) (n : Nat) (dtz dtdm : Bool) :
    renderFixed p n dtz dtdm []
      = (signChars p.neg ++ (roundedFixed p n).1) ++ tailFixed (roundedFixed p n).2 dtz dtdm := by
  rw [renderFixed, insertSep_nil, List.append_assoc]

theorem applyTrim_renderFixed (p : Parts) (n : Nat) (dtz dtdm : Bool) :
    renderFixed p n dtz dtdm [] = applyTrim dtz dtdm (renderFixed p n false false []) := by
  have hAdot : ∀ c ∈ signChars p.neg ++ (roundedFixed p n).1, (c != '.') = true := by
    intro c hc
    rcases List.mem_append.mp hc with hd | hd
    · cases hneg : p.neg <;> rw [hneg] at hd <;> simp [signChars] at hd
      subst hd
      decide
    · have := isDig_ne_dot (roundedFixed_fst_digits p n c hd)
      simpa using this
  rw [renderFixed_ff, applyTrim]
  rw [if_pos (by simp : '.' ∈ (signChars p.neg ++ (roundedFixed p n).1) ++ '.' :: (roundedFixed p n).2)]
  have htake : ((signChars p.neg ++ (roundedFixed p n).1) ++ '.' :: (roundedFixed p n).2).takeWhile
      (fun c => c != '.') = signChars p.neg ++ (roundedFixed p n).1 :=
    takeWhile_append_stop _ '.' _ hAdot (by decide)
  rw [htake]
  have hdrop : List.drop 1 (List.drop (signChars p.neg ++ (roundedFixed p n).1).length
      ((signChars p.neg ++ (roundedFixed p n).1) ++ '.' :: (roundedFixed p n).2))
      = (roundedFixed p n).2 := by
    rw [List.drop_left]
    rfl
  dsimp only
  rw [hdrop]
  rw [renderFixed_tail, tailFixed]
  by_cases hem : (if dtz then dropTrailingZeros (roundedFixed p n).2
      else (roundedFixed p n).2).isEmpty = true
  · rw [if_pos hem, if_pos hem]
    cases dtdm <;> simp
  · rw [if_neg hem, if_neg hem]

theorem format_number_fixed_trim (s : List Char) (n : Nat) (dtz dtdm : Bool) :
    format_number s (some (n : Int)) none dtz dtdm []
      = Except.map (applyTrim dtz dtdm) (format_number s (some (n : Int)) none false false []) := by
  rw [format_number_fixed_eq, format_number_fixed_eq]
  cases hp : pipelineParse s with
  | none => rfl
  | some p =>
    simp only [Except.map]
    rw [applyTrim_renderFixed]

/-- C7: in fixed-decimals mode suppression applies after rounding:
`drop_trailing_zeros` strips trailing fractional zeros (dropping the whole
fractional part if it empties), `drop_trailing_dec_mark` omits the mark when
the fraction is empty after trimming — the flagged output is exactly the
trimming `applyTrim` of the untrimmed output — and with zero decimals and the
mark not suppressed the result carries a bare trailing decimal mark. -/
theorem claim_C7 :
    (∀ (s : List Char) (n : Nat) (dtz dtdm : Bool),
      format_number s (some (n : Int)) none dtz dtdm []
        = Except.map (applyTrim dtz dtdm) (format_number s (some (n : Int)) none false false [])) ∧
    (∀ (s out : List Char) (dtz : Bool),
      format_number s (some ((0 : Nat) : Int)) none dtz false [] = .ok out →
        out.getLast? = some '.') := by
  refine ⟨format_number_fixed_trim, ?_⟩
  intro s out dtz h
  rw [format_number_fixed_eq] at h
  cases hp : pipelineParse s with
  | none => rw [hp] at h; exact absurd h (by simp)
  | some p =>
    rw [hp] at h
    simp only [Except.ok.injEq] at h
    have hf0 : (roundedFixed p 0).2 = [] :=
      List.eq_nil_of_length_eq_zero (roundedFixed_snd_length p 0)
    have htail : tailFixed (roundedFixed p 0).2 dtz false = ['.'] := by
      rw [hf0, tailFixed]
      cases dtz <;> simp [dropTrailingZeros]
    rw [← h, renderFixed_tail, htail, List.getLast?_concat]

theorem claim_C7_witness :
    format_number ("1").data (some ((0 : Nat) : Int)) none false false [] = .ok ("1.").data ∧
    ("1.").data.getLast? = some '.' :=
  ⟨rfl, claim_C7.2 (("1").data) (("1.").data) false rfl⟩

theorem chunk3_sizes (l : List Char) :
    (∀ g ∈ (chunk3 l).dropLast, g.length = 3) ∧ (∀ g ∈ chunk3 l, 1 ≤ g.length ∧ g.length ≤ 3) := by
  induction l using chunk3.induct with
  | case1 a b c rest ih =>
    constructor
    · intro g hg
      rw [chunk3] at hg
      rcases hrest : chunk3 rest with _ | ⟨y, ys⟩
      · rw [hrest] at hg
        simp at hg
      · rw [hrest] at hg
        rw [List.dropLast_cons_of_ne_nil (by simp : (y :: ys) ≠ [])] at hg
        rcases List.mem_cons.mp hg with rfl | hg2
        · rfl
        · apply ih.1
          rw [hrest]
          exact hg2
    · intro g hg
      rw [chunk3] at hg
      rcases List.mem_cons.mp hg with rfl | hg2
      · simp
      · exact ih.2 g hg2
  | case2 => simp [chunk3]
  | case3 x hlong hnil =>
    rcases x with _ | ⟨d, t⟩
    · exact absurd rfl hnil
    · rcases t with _ | ⟨e, t2⟩
      · have hc : chunk3 [d] = [[d]] := rfl
        rw [hc]
        constructor
        · intro g hg
          simp at hg
        · intro g hg
          rcases List.mem_singleton.mp hg with rfl
          simp
      · rcases t2 with _ | ⟨f, t3⟩
        · have hc : chunk3 [d, e] = [[d, e]] := rfl
          rw [hc]
          constructor
          · intro g hg
            simp at hg
          · intro g hg
            rcases List.mem_singleton.mp hg with rfl
            simp
        · exact absurd rfl (hlong d e f t3)

theorem drop_one_reverse (M : List (List Char)) : (M.reverse).drop 1 = (M.dropLast).reverse := by
  induction M using List.reverseRecOn with
  | nil => rfl
  | append_singleton ys y ih =>
    rw [List.reverse_append, List.dropLast_concat]
    simp

theorem groupsFromRight_sizes (l : List Char) :
    (∀ g ∈ (groupsFromRight l).drop 1, g.length = 3) ∧
    (∀ g ∈ groupsFromRight l, 1 ≤ g.length ∧ g.length ≤ 3) := by
  have hch := chunk3_sizes l.reverse
  constructor
  · intro g hg
    rw [groupsFromRight, drop_one_reverse] at hg
    rw [List.mem_reverse] at hg
    rw [← List.map_dropLast] at hg
    rcases List.mem_map.mp hg with ⟨g2, hg2, rfl⟩
    rw [List.length_reverse]
    exact hch.1 g2 hg2
  · intro g hg
    rw [groupsFromRight, List.mem_reverse] at hg
    rcases List.mem_map.mp hg with ⟨g2, hg2, rfl⟩
    rw [List.length_reverse]
    exact hch.2 g2 hg2

theorem intercalate_nil_groups (sep : List Char) : List.intercalate sep [] = [] := by
  simp [List.intercalate]

theorem filter_intercalate (p : Char → Bool) (sep : List Char) (gs : List (List Char))
    (hsep : ∀ c ∈ sep, p c = false) (hg : ∀ g ∈ gs, ∀ c ∈ g, p c = true) :
    (List.intercalate sep gs).filter p = gs.flatten := by
  induction gs with
  | nil => rw [intercalate_nil_groups]; rfl
  | cons g t ih =>
    cases t with
    | nil =>
      rw [intercalate_singleton_group]
      simp only [List.flatten_cons, List.flatten_nil, List.append_nil]
      rw [List.filter_eq_self]
      exact hg g (List.mem_singleton.mpr rfl)
    | cons g2 t2 =>
      rw [intercalate_cons₂, List.filter_append, List.filter_append]
      have h1 : List.filter p g = g := by
        rw [List.filter_eq_self]
        exact hg g (List.mem_cons_self _ _)
      have h2 : List.filter p sep = [] := by
        rw [List.filter_eq_nil_iff]
        intro c hc
        simp [hsep c hc]
      rw [h1, h2, ih (fun g' hg' => hg g' (List.mem_cons_of_mem _ hg'))]
      simp

theorem insertSep_filter (p : Char → Bool) (sep l : List Char)
    (hsep : ∀ c ∈ sep, p c = false) (hl : ∀ c ∈ l, p c = true) :
    (insertSep sep l).filter p = l := by
  rw [insertSep, filter_intercalate p sep _ hsep, flatten_groupsFromRight]
  intro g hg c hc
  apply hl
  rw [← flatten_groupsFromRight l]
  exact List.mem_flatten.mpr ⟨g, hg, hc⟩

theorem contains_eq_true_of_mem {sep : List Char} {c : Char} (h : c ∈ sep) :
    sep.contains c = true :=
  List.elem_iff.mpr h

theorem contains_eq_false_of_not_mem {sep : List Char} {c : Char} (h : c ∉ sep) :
    sep.contains c = false := by
  rcases hb : sep.contains c with _ | _
  · rfl
  · exact absurd (List.elem_iff.mp hb) h

theorem format_number_with_separator_split (a b sep : List Char)
    (ha : ∀ c ∈ a, isDig c = true) :
    format_number_with_separator (a ++ '.' :: b) sep = insertSep sep a ++ '.' :: b := by
  have hsign : splitSign (a ++ '.' :: b) = (false, a ++ '.' :: b) := by
    apply splitSign_not_sign
    intro c hc
    rcases a with _ | ⟨x, r⟩
    · simp at hc
      subst hc
      exact ⟨by decide, by decide⟩
    · simp at hc
      subst hc
      have hx := ha x (List.mem_cons_self x r)
      exact ⟨isDig_ne_dash hx, isDig_ne_plus hx⟩
  have htake : (a ++ '.' :: b).takeWhile (fun c => c != '.') = a :=
    takeWhile_append_stop a '.' b (fun c hc => by simpa using isDig_ne_dot (ha c hc)) (by decide)
  rw [format_number_with_separator]
  rw [hsign]
  rw [htake, List.drop_left]
  simp [signChars]

/-- C4: separator insertion groups the integer part into clusters of exactly
three digits from the right joined by the separator (all clusters except
possibly the leftmost have length three, erasing the separator recovers the
digits), never touches the decimal mark or the fractional digits, and operates
exactly on arbitrarily long numeric strings. -/
theorem claim_C4 :
    (∀ (a b sep : List Char), (∀ c ∈ a, isDig c = true) →
      format_number_with_separator (a ++ '.' :: b) sep = insertSep sep a ++ '.' :: b) ∧
    (∀ l : List Char,
      (groupsFromRight l).flatten = l ∧
      (∀ g ∈ (groupsFromRight l).drop 1, g.length = 3) ∧
      (∀ g ∈ groupsFromRight l, 1 ≤ g.length ∧ g.length ≤ 3)) ∧
    (∀ (sep l : List Char), (∀ c ∈ l, c ∉ sep) →
      (insertSep sep l).filter (fun c => !(sep.contains c)) = l) := by
  refine ⟨format_number_with_separator_split, ?_, ?_⟩
  · intro l
    exact ⟨flatten_groupsFromRight l, (groupsFromRight_sizes l).1, (groupsFromRight_sizes l).2⟩
  · intro sep l hdisj
    apply insertSep_filter
    · intro c hc
      rw [contains_eq_true_of_mem hc]
      rfl
    · intro c hc
      rw [contains_eq_false_of_not_mem (hdisj c hc)]
      rfl

theorem claim_C4_witness :
    format_number_with_separator ("82534563535234324.233535303503503530530535").data [','] =
      ("82,534,563,535,234,324.233535303503503530530535").data ∧
    format_number_with_separator ("8234252645325").data [','] = ("8,234,252,645,325").data ∧
    format_number_with_separator
        (("82534563535234324").data ++ '.' :: ("233535303503503530530535").data) [','] =
      insertSep [','] (("82534563535234324").data) ++
        '.' :: ("233535303503503530530535").data :=
  ⟨rfl, rfl,
    claim_C4.1 (("82534563535234324").data) (("233535303503503530530535").data) [','] (by decide)⟩

theorem natChars_length_ge (R k : Nat) (h : 10 ^ k ≤ R) : k + 1 ≤ (natChars R).length := by
  have hlt : R < 10 ^ (natChars R).length := by
    have := charsNat_lt (natChars R) (natChars_digits R)
    rwa [charsNat_natChars] at this
  have hkl : (10 : Nat) ^ k < 10 ^ (natChars R).length := lt_of_le_of_lt h hlt
  have := (Nat.pow_lt_pow_iff_right (by omega : 1 < 10)).mp hkl
  omega

theorem formatSigParts_frac (p : Parts) (n : Nat)
    (hip0 : charsNat p.ip = 0) (hfp0 : charsNat p.fp ≠ 0) (hn : 1 ≤ n) :
    formatSigParts p n =
      ((roundedFixed p (n + (p.fp.takeWhile (fun c => c == '0')).length)).1,
        '.' :: (roundedFixed p (n + (p.fp.takeWhile (fun c => c == '0')).length)).2) := by
  rw [formatSigParts, if_neg (fun hcon => hfp0 hcon.2), sigExponent, if_pos hip0]
  have hd : (n : Int) - -(((p.fp.takeWhile (fun c => c == '0')).length : Nat) : Int)
      = ((n + (p.fp.takeWhile (fun c => c == '0')).length : Nat) : Int) := by
    push_cast
    ring
  rw [hd]
  rw [if_pos (Int.natCast_nonneg _)]
  dsimp only
  rw [if_neg (by omega : ¬(((n + (p.fp.takeWhile (fun c => c == '0')).length : Nat) : Int) = 0))]
  rw [Int.toNat_natCast]

theorem pipelineParse_digitsOnly (v : List Char) (hd : ∀ c ∈ v, isDig c = true) (hne : v ≠ []) :
    pipelineParse v = some ⟨false, v, []⟩ := by
  rw [pipelineParse, expand_exponential]
  have hm : hasMarker v = false :=
    hasMarker_eq_false v (fun c hc => ⟨isDig_ne_e (hd c hc), isDig_ne_E (hd c hc)⟩)
  rw [if_neg (by simp [hm])]
  have hps := parsePlain_shape false v [] hd (by simp) (fun hcon => hne hcon.1)
  rw [plainShape] at hps
  simpa [signChars] using hps

theorem charsNat_nil : charsNat [] = 0 := rfl

theorem formatSigParts_intEq (v : List Char) (hd : ∀ c ∈ v, isDig c = true)
    (hne : v ≠ []) (hh : v.head? ≠ some '0') :
    formatSigParts ⟨false, v, []⟩ v.length = (v, ['.']) := by
  have hv0 : charsNat v ≠ 0 := by
    have := charsNat_pos_of_head v hd hh hne
    omega
  have hrt : natChars (charsNat v) = v := natChars_charsNat v hd hne hh
  rw [formatSigParts]
  rw [if_neg (fun hcon => hv0 hcon.1), sigExponent]
  rw [if_neg hv0, hrt, sub_self]
  rw [if_pos le_rfl]
  dsimp only
  rw [if_pos rfl, if_pos charsNat_nil, Int.toNat_zero, roundedFixed]
  simp [hrt]

theorem formatSigParts_intLt (v : List Char) (n : Nat) (hd : ∀ c ∈ v, isDig c = true)
    (hne : v ≠ []) (hh : v.head? ≠ some '0') (hlt : n < v.length) :
    formatSigParts ⟨false, v, []⟩ n =
      (natChars (roundHalfUpScaled (charsNat v) (10 ^ (v.length - n)))
        ++ List.replicate (v.length - n) '0', []) := by
  have hv0 : charsNat v ≠ 0 := by
    have := charsNat_pos_of_head v hd hh hne
    omega
  have hrt : natChars (charsNat v) = v := natChars_charsNat v hd hne hh
  rw [formatSigParts]
  rw [if_neg (fun hcon => hv0 hcon.1), sigExponent]
  rw [if_neg hv0, hrt]
  rw [if_neg (by omega : ¬(0 ≤ (n : Int) - (v.length : Int)))]
  dsimp only
  have hm : (-((n : Int) - (v.length : Int))).toNat = v.length - n := by omega
  rw [hm]
  norm_num [charsNat_nil]

/-- C5: in significant-figures mode, significance counting starts at the first
nonzero digit: for every accepted value strictly between zero and one the
leading fractional zeros do not count, so the output carries the `z` leading
zeros plus exactly `n` further (rounded) digits after the decimal mark. -/
theorem claim_C5 (s : List Char) (p : Parts) (n : Nat)
    (hp : pipelineParse s = some p) (hip0 : charsNat p.ip = 0) (hfp0 : charsNat p.fp ≠ 0)
    (hn : 1 ≤ n) :
    ∃ a b, format_number s none (some (n : Int)) false true [] = .ok (a ++ '.' :: b) ∧
      '.' ∉ a ∧ b.length = n + (p.fp.takeWhile (fun c => c == '0')).length := by
  rw [format_number_sig_eq, hp]
  refine ⟨signChars p.neg
      ++ (roundedFixed p (n + (p.fp.takeWhile (fun c => c == '0')).length)).1,
    (roundedFixed p (n + (p.fp.takeWhile (fun c => c == '0')).length)).2, ?_, ?_,
    by rw [roundedFixed_snd_length]⟩
  · simp only [renderSig, insertSep_nil, formatSigParts_frac p n hip0 hfp0 hn]
  · intro hdot
    rcases List.mem_append.mp hdot with hd | hd
    · cases hneg : p.neg <;> rw [hneg] at hd <;> simp [signChars] at hd
    · exact absurd rfl (isDig_ne_dot (roundedFixed_fst_digits p _ '.' hd))

theorem claim_C5_witness :
    format_number ("0.000001234").data none (some ((3 : Nat) : Int)) false true []
        = .ok ("0.00000123").data ∧
    (∃ a b, format_number ("0.000001234").data none (some ((3 : Nat) : Int)) false true []
        = .ok (a ++ '.' :: b) ∧ '.' ∉ a ∧
      b.length = 3 + ((("000001234").data).takeWhile (fun c => c == '0')).length) :=
  ⟨rfl, claim_C5 (("0.000001234").data) ⟨false, ['0'], ("000001234").data⟩ 3
    (by decide) (by decide) (by decide) (by decide)⟩

/-- C6 counterexample: `123450` is integer-valued and with `n_sigfig = 5` the
fifth significant digit lies before the units position, no fractional digits
remain, and yet the result `"123450"` has no trailing decimal mark, contrary
to the claim. -/
theorem claim_C6_counterexample :
    format_number ("123450").data none (some 5) false true [] = .ok ("123450").data ∧
    ('.' ∉ ("123450").data) :=
  ⟨rfl, by decide⟩

/-- C6 (amended): in significant-figures mode on an integer-valued input with
`d` digits, when `n = d` (the `n`-th significant digit is exactly the units
digit) the result is the digit string with a bare trailing decimal mark; when
`n < d` the result is all digits, zero-padded up to the units position (its
last `d - n` characters are zeros and it is at least `d` long) with no decimal
mark at all. -/
theorem claim_C6 (v : List Char) (n : Nat) (hd : ∀ c ∈ v, isDig c = true)
    (hne : v ≠ []) (hh : v.head? ≠ some '0') :
    (n = v.length → format_number v none (some (n : Int)) false true [] = .ok (v ++ ['.'])) ∧
    (1 ≤ n → n < v.length →
      ∃ out, format_number v none (some (n : Int)) false true [] = .ok out ∧
        (∀ c ∈ out, isDig c = true) ∧ v.length ≤ out.length ∧
        ∃ pre, out = pre ++ List.replicate (v.length - n) '0') := by
  have hpp := pipelineParse_digitsOnly v hd hne
  constructor
  · intro hnv
    subst hnv
    rw [format_number_sig_eq, hpp]
    simp only [renderSig, insertSep_nil, formatSigParts_intEq v hd hne hh]
    simp [signChars]
  · intro hn hlt
    rw [format_number_sig_eq, hpp]
    simp only [renderSig, insertSep_nil, formatSigParts_intLt v n hd hne hh hlt]
    refine ⟨natChars (roundHalfUpScaled (charsNat v) (10 ^ (v.length - n)))
        ++ List.replicate (v.length - n) '0', ?_, ?_, ?_, ⟨_, rfl⟩⟩
    · simp [signChars]
    · intro c hc
      rcases List.mem_append.mp hc with hcm | hcm
      · exact natChars_digits _ c hcm
      · rcases List.eq_of_mem_replicate hcm with rfl; decide
    · rw [List.length_append, List.length_replicate]
      have hlow : 10 ^ (n - 1) ≤ roundHalfUpScaled (charsNat v) (10 ^ (v.length - n)) := by
        have hN : 10 ^ (v.length - 1) ≤ charsNat v := by
          rcases v with _ | ⟨c, r⟩
          · exact absurd rfl hne
          · have := charsNat_head_lower c r (hd c (List.mem_cons_self c r)) (by simpa using hh)
            simpa using this
        have hdivle : 10 ^ (v.length - 1) / 10 ^ (v.length - n)
            ≤ charsNat v / 10 ^ (v.length - n) := Nat.div_le_div_right hN
        have hdiv2 : charsNat v / 10 ^ (v.length - n)
            ≤ roundHalfUpScaled (charsNat v) (10 ^ (v.length - n)) := by
          rw [roundHalfUpScaled]
          exact Nat.div_le_div_right (Nat.le_add_right _ _)
        have hpowdiv : (10 : Nat) ^ (v.length - 1) / 10 ^ (v.length - n) = 10 ^ (n - 1) := by
          rw [Nat.pow_div (by omega) (by omega)]
          congr 1
          omega
        calc 10 ^ (n - 1) = 10 ^ (v.length - 1) / 10 ^ (v.length - n) := hpowdiv.symm
          _ ≤ charsNat v / 10 ^ (v.length - n) := hdivle
          _ ≤ _ := hdiv2
      have hlen := natChars_length_ge _ (n - 1) hlow
      omega

theorem claim_C6_witness :
    format_number ("123450").data none (some ((6 : Nat) : Int)) false true []
        = .ok (("123450").data ++ ['.']) ∧
    (∃ out, format_number ("123450").data none (some ((4 : Nat) : Int)) false true []
        = .ok out ∧ (∀ c ∈ out, isDig c = true) ∧ ("123450").data.length ≤ out.length ∧
      ∃ pre, out = pre ++ List.replicate (("123450").data.length - 4) '0') :=
  ⟨(claim_C6 (("123450").data) 6 (by decide) (by decide) (by decide)).1 (by decide),
    (claim_C6 (("123450").data) 4 (by decide) (by decide) (by decide)).2 (by decide) (by decide)⟩

theorem renderShift_eq (neg : Bool) (md : List Char) (q : Int) :
    renderShift neg md q = signChars neg ++ shiftBody md q := rfl

theorem shiftBody_chars (md : List Char) (q : Int) (hmd : ∀ c ∈ md, isDig c = true) :
    ∀ c ∈ shiftBody md q, c = '.' ∨ isDig c = true := by
  intro c hc
  rw [shiftBody] at hc
  split at hc
  · rcases List.mem_cons.mp hc with rfl | hc2
    · right; decide
    · rcases List.mem_cons.mp hc2 with rfl | hc3
      · left; rfl
      · rcases List.mem_append.mp hc3 with h | h
        · rcases List.eq_of_mem_replicate h with rfl
          right; decide
        · right; exact hmd c h
  · split at hc
    · rcases List.mem_append.mp hc with h | h
      · right; exact hmd c (List.mem_of_mem_take h)
      · rcases List.mem_cons.mp h with rfl | h2
        · left; rfl
        · right; exact hmd c (List.mem_of_mem_drop h2)
    · rcases List.mem_append.mp hc with h | h
      · right; exact hmd c h
      · rcases List.eq_of_mem_replicate h with rfl
        right; decide

theorem hasMarker_renderShift (neg : Bool) (md : List Char) (q : Int)
    (hmd : ∀ c ∈ md, isDig c = true) : hasMarker (renderShift neg md q) = false := by
  rw [renderShift_eq]
  apply hasMarker_eq_false
  intro c hc
  rcases List.mem_append.mp hc with h | h
  · cases hneg : neg <;> rw [hneg] at h <;> simp [signChars] at h
    subst h
    exact ⟨by decide, by decide⟩
  · rcases shiftBody_chars md q hmd c h with rfl | hdig
    · exact ⟨by decide, by decide⟩
    · exact ⟨isDig_ne_e hdig, isDig_ne_E hdig⟩

theorem signOnceFront_renderShift (neg : Bool) (md : List Char) (q : Int)
    (hmd : ∀ c ∈ md, isDig c = true) : signOnceFront (renderShift neg md q) := by
  rw [renderShift_eq, signOnceFront]
  constructor
  · intro hplus
    rcases List.mem_append.mp hplus with h | h
    · cases hneg : neg <;> rw [hneg] at h <;> simp [signChars] at h
    · rcases shiftBody_chars md q hmd '+' h with h2 | h2
      · exact absurd h2 (by decide)
      · exact absurd h2 (by decide)
  · intro hdash
    have hbody : '-' ∉ shiftBody md q := by
      intro h
      rcases shiftBody_chars md q hmd '-' h with h2 | h2
      · exact absurd h2 (by decide)
      · exact absurd h2 (by decide)
    cases hneg : neg
    · rw [hneg] at hdash
      simp only [signChars, List.nil_append] at hdash
      exact hbody (List.mem_of_mem_drop hdash)
    · rw [hneg] at hdash
      simp only [signChars] at hdash
      exact hbody (by simpa using hdash)

theorem charsNat_zeroSingleton : charsNat ['0'] = 0 := by decide

theorem plainValTotal_renderShift (neg : Bool) (md : List Char) (q : Int)
    (hmd : ∀ c ∈ md, isDig c = true) (hne : md ≠ []) :
    plainValTotal (renderShift neg md q)
      = (if neg then (-1 : ℚ) else 1) * (charsNat md : ℚ)
          * (10 : ℚ) ^ (q - (md.length : Int)) := by
  obtain ⟨m0, md', hm0⟩ : ∃ m0 md', md = m0 :: md' := by
    rcases md with _ | ⟨m0, md'⟩
    · exact absurd rfl hne
    · exact ⟨m0, md', rfl⟩
  have hm0d : isDig m0 = true := hmd m0 (by rw [hm0]; exact List.mem_cons_self _ _)
  rw [renderShift_eq, shiftBody]
  by_cases h1 : q ≤ 0
  · rw [if_pos h1, plainValTotal]
    rw [splitSign_signChars neg _ (by
      intro c hc
      simp at hc
      subst hc
      exact ⟨by decide, by decide⟩)]
    dsimp only
    have hshape : ('0' :: '.' :: (List.replicate (-q).toNat '0' ++ md))
        = ['0'] ++ '.' :: (List.replicate (-q).toNat '0' ++ md) := rfl
    rw [hshape, takeWhile_append_stop ['0'] '.' _ (by intro a ha; simp at ha; subst ha; decide)
      (by decide)]
    rw [List.drop_left, List.drop_one, List.tail_cons]
    rw [charsNat_zeroSingleton, charsNat_zeros_append, List.length_append,
      List.length_replicate]
    have hexp : q - (md.length : Int) = -((((-q).toNat + md.length : ℕ) : Int)) := by omega
    rw [hexp, zpow_neg, zpow_natCast]
    push_cast
    rw [div_eq_mul_inv]
    ring
  · by_cases h2 : q < md.length
    · rw [if_neg h1, if_pos h2, plainValTotal]
      have htpos : 1 ≤ q.toNat := by omega
      have htake0 : md.take q.toNat = m0 :: md'.take (q.toNat - 1) := by
        rw [hm0]
        rcases ht : q.toNat with _ | t
        · omega
        · simp [List.take_succ_cons]
      rw [splitSign_signChars neg _ (by
        intro c hc
        rw [htake0] at hc
        simp at hc
        subst hc
        exact ⟨isDig_ne_dash hm0d, isDig_ne_plus hm0d⟩)]
      dsimp only
      rw [takeWhile_append_stop (md.take q.toNat) '.' (md.drop q.toNat)
        (by intro a ha; simpa using isDig_ne_dot (hmd a (List.mem_of_mem_take ha)))
        (by decide)]
      rw [List.drop_left, List.drop_one, List.tail_cons]
      have hmdsplit : charsNat md
          = charsNat (md.take q.toNat) * 10 ^ ((md.drop q.toNat).length) +
            charsNat (md.drop q.toNat) := by
        conv_lhs => rw [← List.take_append_drop q.toNat md]
        rw [charsNat_append]
      have hlen : ((md.drop q.toNat).length) = md.length - q.toNat := List.length_drop _ _
      have hexp : q - (md.length : Int) = -(((md.length - q.toNat : ℕ) : Int)) := by omega
      rw [hmdsplit, hlen, hexp, zpow_neg, zpow_natCast]
      push_cast
      have hden : ((10 : ℚ) ^ (md.length - q.toNat)) ≠ 0 := by positivity
      field_simp
    · rw [if_neg h1, if_neg h2, plainValTotal]
      rw [splitSign_signChars neg _ (by
        intro c hc
        rw [hm0] at hc
        simp at hc
        subst hc
        exact ⟨isDig_ne_dash hm0d, isDig_ne_plus hm0d⟩)]
      dsimp only
      rw [takeWhile_of_all _ (by
        intro a ha
        rcases List.mem_append.mp ha with h | h
        · simpa using isDig_ne_dot (hmd a h)
        · rcases List.eq_of_mem_replicate h with rfl
          decide)]
      rw [List.drop_length]
      rw [charsNat_append_zeros]
      have hexp : q - (md.length : Int) = (((q.toNat - md.length : ℕ) : Int)) := by omega
      rw [hexp, zpow_natCast]
      push_cast
      simp [charsNat]

/-- C3: `expand_exponential` maps an exponential-notation string to the
equivalent plain decimal string of the same value, without exponent marker,
with the sign emitted at most once and only at the very front; any string
without an exponent marker is returned unchanged. -/
theorem claim_C3 :
    (∀ s : List Char, hasMarker s = false → expand_exponential s = some s) ∧
    (∀ (s : List Char) (neg : Bool) (ip fp : List Char) (ex : Int),
      parseExp s = some (neg, ip, fp, ex) → hasMarker s = true →
      ∃ t, expand_exponential s = some t ∧ hasMarker t = false ∧ signOnceFront t ∧
        plainValTotal t
          = (if neg then (-1 : ℚ) else 1) * (charsNat (ip ++ fp) : ℚ)
              * (10 : ℚ) ^ (ex - (fp.length : Int))) := by
  constructor
  · intro s hm
    rw [expand_exponential, if_neg (by simp [hm])]
  · intro s neg ip fp ex hpe hm
    obtain ⟨hip, hfp, hnonempty⟩ := parseExp_digits s neg ip fp ex hpe
    have hmd : ∀ c ∈ ip ++ fp, isDig c = true := by
      intro c hc
      rcases List.mem_append.mp hc with h | h
      · exact hip c h
      · exact hfp c h
    have hmdne : ip ++ fp ≠ [] := fun hcon =>
      hnonempty ⟨(List.append_eq_nil.mp hcon).1, (List.append_eq_nil.mp hcon).2⟩
    refine ⟨renderShift neg (ip ++ fp) ((ip.length : Int) + ex), ?_,
      hasMarker_renderShift _ _ _ hmd, signOnceFront_renderShift _ _ _ hmd, ?_⟩
    · rw [expand_exponential, if_pos (by simp [hm]), hpe]
    · rw [plainValTotal_renderShift neg (ip ++ fp) _ hmd hmdne]
      congr 1
      congr 1
      rw [List.length_append]
      push_cast
      ring

theorem claim_C3_witness :
    expand_exponential ("1e-5").data = some ("0.00001").data ∧
    expand_exponential ("1E+5").data = some ("100000").data ∧
    expand_exponential ("150000").data = some ("150000").data ∧
    (∃ t, expand_exponential ("1e-5").data = some t ∧ hasMarker t = false ∧ signOnceFront t ∧
      plainValTotal t = (if false then (-1 : ℚ) else 1) * (charsNat (['1'] ++ []) : ℚ)
          * (10 : ℚ) ^ ((-5 : Int) - (([] : List Char).length : Int))) :=
  ⟨rfl, rfl, claim_C3.1 (("150000").data) (by decide),
    claim_C3.2 (("1e-5").data) false ['1'] [] (-5) (by decide) (by decide)⟩

theorem flatMap_filter_congr (gs : List String) (l l' : List RowInfo)
    (h : ∀ g ∈ gs, l.filter (fun r => r.group == g) = l'.filter (fun r => r.group == g)) :
    gs.flatMap (fun g => l.filter (fun r => r.group == g))
      = gs.flatMap (fun g => l'.filter (fun r => r.group == g)) := by
  induction gs with
  | nil => rfl
  | cons g t ih =>
    rw [List.flatMap_cons, List.flatMap_cons, h g (List.mem_cons_self _ _),
      ih (fun g' hg' => h g' (List.mem_cons_of_mem _ hg'))]

theorem flatMap_filter_perm (gs : List String) (l : List RowInfo) (hnd : gs.Nodup)
    (hcov : ∀ r ∈ l, r.group ∈ gs) :
    (gs.flatMap (fun g => l.filter (fun r => r.group == g))).Perm l := by
  induction gs generalizing l with
  | nil =>
    rcases l with _ | ⟨r, t⟩
    · simp
    · exact absurd (hcov r (List.mem_cons_self _ _)) (by simp)
  | cons g gs ih =>
    rw [List.flatMap_cons]
    have hng : g ∉ gs := (List.nodup_cons.mp hnd).1
    have hsub : gs.flatMap (fun g' => l.filter (fun r => r.group == g'))
        = gs.flatMap (fun g' =>
            (l.filter (fun r => !(r.group == g))).filter (fun r => r.group == g')) := by
      apply flatMap_filter_congr
      intro g' hg'
      rw [List.filter_filter]
      apply List.filter_congr
      intro r _
      rcases hbeq : (r.group == g') with _ | _
      · rfl
      · have hrg : r.group = g' := by simpa using hbeq
        have hne : r.group ≠ g := by
          rw [hrg]
          intro hcon
          exact hng (hcon ▸ hg')
        simp [hne]
    have hcov2 : ∀ r ∈ l.filter (fun r => !(r.group == g)), r.group ∈ gs := by
      intro r hr
      have hrl : r ∈ l := List.mem_of_mem_filter hr
      have hrg := List.of_mem_filter hr
      rcases List.mem_cons.mp (hcov r hrl) with hcon | hmem
      · exfalso
        rw [hcon] at hrg
        simp at hrg
      · exact hmem
    have hperm2 := ih (l.filter (fun r => !(r.group == g))) (List.nodup_cons.mp hnd).2 hcov2
    rw [hsub]
    exact (hperm2.append_left _).trans (List.filter_append_perm _ l)

theorem get_row_reorder_df_nil (stub : List RowInfo) :
    get_row_reorder_df [] stub
      = (List.range stub.length).zip (stub.map (fun r => r.idx)) := rfl

theorem get_row_reorder_df_cons (g0 : String) (gr : List String) (stub : List RowInfo) :
    get_row_reorder_df (g0 :: gr) stub
      = (List.range stub.length).zip
          (((g0 :: gr).flatMap (fun g => stub.filter (fun r => r.group == g))).map
            (fun r => r.idx)) := rfl

/-- C10: for a stub of `n` rows, `get_row_reorder_df` returns `n` pairs whose
first components are `0..n-1` in order and whose second components are a
permutation of the row indices; with no groups the order is unchanged, and
otherwise the rows are stably regrouped: the second components are the
concatenation, in group-list order, of each group's row indices in their
original order. -/
theorem claim_C10 :
    (∀ stub : List RowInfo,
      (get_row_reorder_df [] stub).map Prod.fst = List.range stub.length ∧
      (get_row_reorder_df [] stub).map Prod.snd = stub.map RowInfo.idx) ∧
    (∀ (groups : List String) (stub : List RowInfo), groups ≠ [] → groups.Nodup →
      (∀ r ∈ stub, r.group ∈ groups) →
      (get_row_reorder_df groups stub).map Prod.fst = List.range stub.length ∧
      ((get_row_reorder_df groups stub).map Prod.snd).Perm (stub.map RowInfo.idx) ∧
      (get_row_reorder_df groups stub).map Prod.snd
        = (groups.map
            (fun g => (stub.filter (fun r => r.group == g)).map RowInfo.idx)).flatten) := by
  constructor
  · intro stub
    rw [get_row_reorder_df_nil]
    constructor
    · rw [List.map_fst_zip]
      simp
    · rw [List.map_snd_zip]
      simp
  · intro groups stub hne hnd hcov
    obtain ⟨g0, gr, rfl⟩ : ∃ g0 gr, groups = g0 :: gr := by
      rcases groups with _ | ⟨g0, gr⟩
      · exact absurd rfl hne
      · exact ⟨g0, gr, rfl⟩
    have hperm := flatMap_filter_perm (g0 :: gr) stub hnd hcov
    have hlen := hperm.length_eq
    rw [get_row_reorder_df_cons]
    refine ⟨?_, ?_, ?_⟩
    · rw [List.map_fst_zip]
      rw [List.length_map, List.length_range]
      omega
    · rw [List.map_snd_zip]
      · exact hperm.map RowInfo.idx
      · rw [List.length_map, List.length_range]
        omega
    · rw [List.map_snd_zip]
      · rw [List.map_flatMap]
        rw [List.flatMap_def]
      · rw [List.length_map, List.length_range]
        omega

theorem claim_C10_witness :
    get_row_reorder_df ["b", "a"] [⟨0, "a"⟩, ⟨1, "b"⟩, ⟨2, "a"⟩] = [(0, 1), (1, 0), (2, 2)] ∧
    get_row_reorder_df [] [⟨0, "a"⟩, ⟨1, "b"⟩] = [(0, 0), (1, 1)] ∧
    ((get_row_reorder_df ["b", "a"] [⟨0, "a"⟩, ⟨1, "b"⟩, ⟨2, "a"⟩]).map Prod.fst
        = List.range 3 ∧
      ((get_row_reorder_df ["b", "a"] [⟨0, "a"⟩, ⟨1, "b"⟩, ⟨2, "a"⟩]).map Prod.snd).Perm
        ([⟨0, "a"⟩, ⟨1, "b"⟩, ⟨2, "a"⟩].map RowInfo.idx) ∧
      (get_row_reorder_df ["b", "a"] [⟨0, "a"⟩, ⟨1, "b"⟩, ⟨2, "a"⟩]).map Prod.snd
        = (["b", "a"].map (fun g =>
            ([⟨0, "a"⟩, ⟨1, "b"⟩, ⟨2, "a"⟩].filter
              (fun r => r.group == g)).map RowInfo.idx)).flatten) :=
  ⟨by decide, by decide,
    claim_C10.2 ["b", "a"] [⟨0, "a"⟩, ⟨1, "b"⟩, ⟨2, "a"⟩] (by decide) (by decide) (by decide)⟩
